import Mathlib

/-!
Verification of the comment-extraction engine in
`src/td/converter/plugins/CommentPlugin.ts`.

Strings are modelled as lists of characters (`Str`).  JavaScript string
operations (regex replaces, `split`, `substr`, `trim`, `toLowerCase`,
`indexOf`) are embedded as explicit recursive functions on `Str`, each one
translating the concrete regular expression used at the corresponding place
in the source.  Mutable objects (`Comment`, tags, the module-comment table,
reflections) become immutable structures threaded through explicit state
passing.
-/

namespace CommentPlugin

/-- Strings as lists of characters. -/
abbrev Str := List Char

/-- JavaScript `\s` (whitespace class), restricted to the ASCII range. -/
def isWS (c : Char) : Bool :=
  c == ' ' || c == '\t' || c == '\n' || c == '\r' || c == '\x0b' || c == '\x0c'

/-- JavaScript `\w` (word-character class), restricted to the ASCII range. -/
def isWordChar (c : Char) : Bool :=
  c.isAlphanum || c == '_'

/-- JavaScript `toLowerCase`, restricted to the ASCII range. -/
def toLower (s : Str) : Str := s.map Char.toLower

/-- Drop leading whitespace (the `^\s*` part of the gutter/trim regexes). -/
def dropLeadingWS (s : Str) : Str := s.dropWhile isWS

/-- Drop trailing whitespace (`line.replace(/\s*$/, '')`). -/
def dropTrailingWS (s : Str) : Str := (s.reverse.dropWhile isWS).reverse

/-- JavaScript `String.prototype.trim`. -/
def trim (s : Str) : Str := dropTrailingWS (dropLeadingWS s)

/-- `text.replace(/^\s*\/\*+/, '')`: strip the opening block-comment marker. -/
def stripOpen (s : Str) : Str :=
  match s.dropWhile isWS with
  | '/' :: '*' :: rest => rest.dropWhile (fun c => c == '*')
  | _ => s

/-- `text.replace(/\*+\/\s*$/, '')`: strip the closing block-comment marker.
The match is anchored at the end of the string, so it exists exactly when the
last non-whitespace characters are a run of stars followed by a slash. -/
def stripClose (s : Str) : Str :=
  match s.reverse.dropWhile isWS with
  | '/' :: r =>
    match r with
    | '*' :: _ => (r.dropWhile (fun c => c == '*')).reverse
    | _ => s
  | _ => s

/-- `text.split(/\r\n?|\n/)`, accumulator-based. -/
def splitLinesAux : Str → Str → List Str
  | [], acc => [acc.reverse]
  | '\r' :: '\n' :: rest, acc => acc.reverse :: splitLinesAux rest []
  | '\r' :: rest, acc => acc.reverse :: splitLinesAux rest []
  | '\n' :: rest, acc => acc.reverse :: splitLinesAux rest []
  | c :: rest, acc => splitLinesAux rest (c :: acc)

/-- `text.split(/\r\n?|\n/)`. -/
def splitLines (s : Str) : List Str := splitLinesAux s []

/-- `line.replace(/^\s*\*? ?/, '')`: strip the line gutter (leading
whitespace, then an optional star, then at most one space). -/
def stripGutter (s : Str) : Str :=
  let t := s.dropWhile isWS
  let t :=
    match t with
    | '*' :: r => r
    | _ => t
  match t with
  | ' ' :: r => r
  | _ => t

/-- `/^@(\w+)/.exec(line)`: when the line starts with `@` followed by at
least one word character, return the maximal run of word characters. -/
def execTag (line : Str) : Option Str :=
  match line with
  | '@' :: rest =>
    let w := rest.takeWhile isWordChar
    if w = [] then none else some w
  | _ => none

/-- `line.replace(/^X[^Y]*Y/, '')` for a delimiter pair `X`, `Y`: used for
the `{...}` and `[...]` type annotations in `consumeTypeData`. -/
def stripDelim (opn cls : Char) (line : Str) : Str :=
  match line with
  | c :: rest =>
    if c = opn then
      match rest.dropWhile (fun x => !(x == cls)) with
      | [] => line
      | _ :: r => r
    else line
  | [] => line

/-- The `consumeTypeData` helper of `parseComment`: strip one leading
`{...}` annotation, then one leading `[...]` annotation, then trim. -/
def consumeTypeData (line : Str) : Str :=
  trim (stripDelim '\x5b' '\x5d' (stripDelim '\x7b' '\x7d' line))

/-- A parsed `@`-tag: `new CommentTag(tagName, paramName, text)`.  A missing
parameter name (JavaScript `undefined`) is modelled as the empty string. -/
structure CommentTag where
  tagName : Str
  paramName : Str
  text : Str
deriving DecidableEq, Repr

/-- Modelled from the spec: the `Comment` model class (not part of this
source unit).  Fields per spec §3: `shortText`, `text` (long description),
`returns` and the ordered tag sequence; empty strings stand for
absent/empty values. -/
structure Comment where
  shortText : Str
  text : Str
  returns : Str
  tags : List CommentTag
deriving DecidableEq, Repr

/-- Modelled from the spec: `new Comment()` — an empty comment. -/
def Comment.empty : Comment := ⟨[], [], [], []⟩

/-- Modelled from the spec: `new Comment(shortText)` — a comment holding
only a short text. -/
def Comment.ofShort (s : Str) : Comment := ⟨s, [], [], []⟩

/-- The per-line loop state of `parseComment`: the comment fields being
built, whether `currentTag` is set (it is always the most recently pushed
tag), and the `shortText` phase counter (0, 1 or 2). -/
structure ParseState where
  shortText : Str
  text : Str
  tags : List CommentTag
  hasCurrent : Bool
  shortPhase : Nat
deriving DecidableEq, Repr

/-- `currentTag.text += s`: `currentTag` aliases the most recently pushed
tag, so appending mutates the last element of the tag list. -/
def appendToLastTag : List CommentTag → Str → List CommentTag
  | [], _ => []
  | [t], s => [{ t with text := t.text ++ s }]
  | t :: ts, s => t :: appendToLastTag ts s

/-- `acc += (acc == '' ? '' : '\n') + line`. -/
def joinStep (a l : Str) : Str := a ++ (if a = [] then [] else ['\n']) ++ l

/-- The normalization `parseComment` applies to each line before
classifying it: gutter strip, then trailing-whitespace strip. -/
def normLine (l : Str) : Str := dropTrailingWS (stripGutter l)

/-- One iteration of the `lines.forEach` body of `parseComment`, taking the
already-normalized line. -/
def processLineCore (st : ParseState) (line : Str) : ParseState :=
  match execTag line with
  | some w =>
    let tagName := toLower w
    let rest := trim (line.drop (tagName.length + 1))
    let tagName := if tagName = "return".data then "returns".data else tagName
    let tag :=
      if tagName = "param".data then
        let rest := consumeTypeData rest
        let param := rest.takeWhile (fun c => !(isWS c))
        if param = [] then
          CommentTag.mk tagName [] (consumeTypeData rest)
        else
          CommentTag.mk tagName param
            (consumeTypeData (trim (rest.drop (param.length + 1))))
      else if tagName = "returns".data then
        CommentTag.mk tagName [] (consumeTypeData rest)
      else
        CommentTag.mk tagName [] rest
    { st with tags := st.tags ++ [tag], hasCurrent := true }
  | none =>
    if st.hasCurrent then
      { st with tags := appendToLastTag st.tags ('\n' :: line) }
    else if line = [] ∧ st.shortPhase = 0 then
      st
    else if line = [] ∧ st.shortPhase = 1 then
      { st with shortPhase := 2 }
    else if st.shortPhase = 2 then
      { st with text := joinStep st.text line }
    else
      { st with shortText := joinStep st.shortText line, shortPhase := 1 }

/-- One iteration of the `lines.forEach` body of `parseComment`. -/
def processLine (st : ParseState) (rawLine : Str) : ParseState :=
  processLineCore st (normLine rawLine)

/-- `CommentPlugin.parseComment(text, comment)`: strip the block-comment
markers, split into lines and run the per-line state machine, accumulating
into the supplied comment. -/
def parseComment (text : Str) (comment : Comment) : Comment :=
  let body := stripClose (stripOpen text)
  let st :=
    (splitLines body).foldl processLine
      ⟨comment.shortText, comment.text, comment.tags, false, 0⟩
  { shortText := st.shortText, text := st.text, returns := comment.returns,
    tags := st.tags }

/-- Modelled from the spec: `comment.hasTag(tagName)` of the `Comment`
model class — is there a tag with the given name? -/
def Comment.hasTag (c : Comment) (name : Str) : Bool :=
  c.tags.any (fun t => t.tagName == name)

/-- Modelled from the spec: `comment.getTag(tagName)` — the first tag
carrying the given name. -/
def Comment.getTag (c : Comment) (name : Str) : Option CommentTag :=
  c.tags.find? (fun t => t.tagName == name)

/-- Modelled from the spec: `comment.getTag(tagName, paramName)` — the
first tag carrying the given name and parameter name. -/
def Comment.getTagNamed (c : Comment) (name pname : Str) : Option CommentTag :=
  c.tags.find? (fun t => t.tagName == name && t.paramName == pname)

/-- The while/splice loop of `CommentPlugin.removeTags`: drop every tag
with the given name, keeping the order of the rest. -/
def removeTagsList : List CommentTag → Str → List CommentTag
  | [], _ => []
  | t :: ts, name =>
    if t.tagName = name then removeTagsList ts name
    else t :: removeTagsList ts name

/-- `CommentPlugin.removeTags(comment, tagName)` with its null guard. -/
def removeTags : Option Comment → Str → Option Comment
  | none, _ => none
  | some c, name => some { c with tags := removeTagsList c.tags name }

/-- `IModuleComment`: the stored module-comment candidate.  The reflection
is represented by its stable numeric id. -/
structure ModuleComment where
  reflectionId : Nat
  fullText : Str
  isPreferred : Bool
deriving DecidableEq, Repr

/-- `needle` occurs as a contiguous substring of the second argument
(JavaScript `hay.indexOf(needle) != -1`). -/
def isInfixList (needle : Str) : Str → Bool
  | [] => needle.isEmpty
  | c :: t => needle.isPrefixOf (c :: t) || isInfixList needle t

/-- `comment.toLowerCase().indexOf('@preferred') != -1`. -/
def isPreferredText (s : Str) : Bool :=
  isInfixList "@preferred".data (toLower s)

/-- The `comments` table of the plugin: reflection id → stored candidate. -/
abbrev CommentTable := Nat → Option ModuleComment

/-- The table as reset by `onBegin`. -/
def emptyTable : CommentTable := fun _ => none

/-- `CommentPlugin.storeModuleComment(comment, reflection)`. -/
def storeModuleComment (table : CommentTable) (comment : Str) (id : Nat) :
    CommentTable :=
  let isPref := isPreferredText comment
  match table id with
  | some info =>
    if !isPref && (info.isPreferred || comment.length < info.fullText.length) then
      table
    else
      fun j =>
        if j = id then some { info with fullText := comment, isPreferred := isPref }
        else table j
  | none =>
    fun j => if j = id then some ⟨id, comment, isPref⟩ else table j

/-- Fold a sequence of `(reflection id, raw text)` discoveries through
`storeModuleComment`, starting from the empty table. -/
def runStore (pairs : List (Nat × Str)) : CommentTable :=
  pairs.foldl (fun tb p => storeModuleComment tb p.2 p.1) emptyTable

/-- The per-candidate body of `onBeginResolve`: parse the retained full
text and strip any `preferred` tags the parser materialized. -/
def finalizeModuleComment (info : ModuleComment) : Comment :=
  let c := parseComment info.fullText Comment.empty
  { c with tags := removeTagsList c.tags "preferred".data }

/-- Modelled from the spec: the visibility flags a reflection carries
(`ReflectionFlag.Private/Protected/Public`, written by `setFlag`). -/
structure RFlags where
  isPrivate : Bool
  isProtected : Bool
  isPublic : Bool
deriving DecidableEq, Repr

/-- `CommentPlugin.applyAccessModifiers(reflection, comment)`: for each of
`private`, `protected`, `public`, set the flag and remove all tags with
that name when present. -/
def applyAccessModifiers (flags : RFlags) (c : Comment) : RFlags × Comment :=
  let s1 : RFlags × Comment :=
    if c.hasTag "private".data then
      ({ flags with isPrivate := true },
       { c with tags := removeTagsList c.tags "private".data })
    else (flags, c)
  let s2 : RFlags × Comment :=
    if s1.2.hasTag "protected".data then
      ({ s1.1 with isProtected := true },
       { s1.2 with tags := removeTagsList s1.2.tags "protected".data })
    else s1
  if s2.2.hasTag "public".data then
    ({ s2.1 with isPublic := true },
     { s2.2 with tags := removeTagsList s2.2.tags "public".data })
  else s2

/-- `comment.tags.splice(comment.tags.indexOf(tag), 1)` where `tag` is the
first tag matching the given name and parameter name: remove exactly that
occurrence. -/
def removeFirstTagNamed : List CommentTag → Str → Str → List CommentTag
  | [], _, _ => []
  | t :: ts, name, pname =>
    if t.tagName == name && t.paramName == pname then ts
    else t :: removeFirstTagNamed ts name pname

/-- `CommentPlugin.onCreateTypeParameter`, as a function of the parent
declaration's comment and the type parameter's name.  Result: the type
parameter's new comment (if any) and the parent's updated comment. -/
def onCreateTypeParameter (parentComment : Option Comment) (name : Str) :
    Option Comment × Option Comment :=
  match parentComment with
  | some c =>
    match c.getTagNamed "param".data name with
    | some tag =>
      (some (Comment.ofShort tag.text),
       some { c with tags := removeFirstTagNamed c.tags "param".data name })
    | none => (none, some c)
  | none => (none, none)

/-- Modelled from the spec: a parameter reflection — a name and an
optional comment. -/
structure Parameter where
  name : Str
  comment : Option Comment
deriving DecidableEq, Repr

/-- Modelled from the spec: a signature reflection — an optional comment
and an ordered parameter list. -/
structure Signature where
  comment : Option Comment
  parameters : List Parameter
deriving DecidableEq, Repr

/-- Modelled from the spec: a declaration reflection — an optional comment
and the signature list returned by `getAllSignatures`. -/
structure Declaration where
  comment : Option Comment
  signatures : List Signature
deriving DecidableEq, Repr

/-- The `hasTag('returns')` block of `onResolve`: move the first `returns`
tag's text into the `returns` field and drop all `returns` tags. -/
def moveReturnsTag (c : Comment) : Comment :=
  match c.getTag "returns".data with
  | some t => { c with returns := t.text, tags := removeTagsList c.tags "returns".data }
  | none => c

/-- The body of the `signatures.forEach` loop of `onResolve`, as a function
of the declaration comment (after its own `returns` move) and the
signature. -/
def reconcileSignature (comment : Option Comment) (sig : Signature) : Signature :=
  let childComment0 : Option Comment := sig.comment.map moveReturnsTag
  let childComment : Option Comment :=
    match comment with
    | none => childComment0
    | some dc =>
      let cc := childComment0.getD Comment.empty
      some { cc with
        shortText := if cc.shortText = [] then dc.shortText else cc.shortText,
        text := if cc.text = [] then dc.text else cc.text,
        returns := if cc.returns = [] then dc.returns else cc.returns }
  let parameters := sig.parameters.map (fun p =>
    let tag0 : Option CommentTag :=
      match childComment with
      | some cc => cc.getTagNamed "param".data p.name
      | none => none
    let tag : Option CommentTag :=
      match tag0 with
      | some t => some t
      | none =>
        match comment with
        | some dc => dc.getTagNamed "param".data p.name
        | none => none
    match tag with
    | some t => { p with comment := some (Comment.ofShort t.text) }
    | none => p)
  { comment := removeTags childComment "param".data, parameters := parameters }

/-- `CommentPlugin.onResolve` on a declaration reflection: the signature
reconciliation pass. -/
def reconcile (d : Declaration) : Declaration :=
  if d.signatures = [] then d
  else
    let comment := d.comment.map moveReturnsTag
    { comment := removeTags comment "param".data,
      signatures := d.signatures.map (reconcileSignature comment) }

/-- Modelled from the spec: the reflection-kind classification consulted by
`onDeclaration` (`kindOf(ReflectionKind.FunctionOrMethod)`,
`kindOf(ReflectionKind.Module)`). -/
inductive RKind where
  | functionOrMethod
  | module
  | other
deriving DecidableEq, Repr

/-- Modelled from the spec: the slice of a reflection this engine touches —
kind, stable id, optional comment, visibility flags. -/
structure Reflection where
  kind : RKind
  id : Nat
  comment : Option Comment
  flags : RFlags
deriving Repr

/-- `CommentPlugin.onDeclaration`: result = (updated reflection, updated
module-comment table).  `parseComment(raw, reflection.comment)` operates on
the reflection's own comment object when one pre-exists, so in the
function/method branch its mutation is visible through the pre-existing
`comment` field (aliasing); a fresh comment is attached only in the final
branch. -/
def onDeclaration (table : CommentTable) (r : Reflection) (rawComment : Option Str) :
    Reflection × CommentTable :=
  match rawComment with
  | none => (r, table)
  | some raw =>
    match r.kind with
    | RKind.functionOrMethod =>
      let parsed := parseComment raw (r.comment.getD Comment.empty)
      let res := applyAccessModifiers r.flags parsed
      ({ r with flags := res.1, comment := r.comment.map (fun _ => res.2) }, table)
    | RKind.module => (r, storeModuleComment table raw r.id)
    | RKind.other =>
      let parsed := parseComment raw (r.comment.getD Comment.empty)
      let res := applyAccessModifiers r.flags parsed
      ({ r with flags := res.1, comment := some res.2 }, table)

/-- The normalized line sequence `parseComment` iterates over: marker
stripping, newline split, per-line normalization. -/
def bodyLines (text : Str) : List Str :=
  (splitLines (stripClose (stripOpen text))).map normLine

/-- Does a (normalized) line start a tag? -/
def isTagLine (l : Str) : Bool := (execTag l).isSome

/-- Join a list of lines with literal newlines. -/
def joinNL : List Str → Str
  | [] => []
  | [l] => l
  | l :: ls => l ++ '\n' :: joinNL ls

/-- Split a line list at its first blank line: `some (before, after)` when a
blank line exists, `none` otherwise. -/
def splitAtFirstBlank : List Str → Option (List Str × List Str)
  | [] => none
  | l :: ls =>
    if l = [] then some ([], ls)
    else (splitAtFirstBlank ls).map (fun p => (l :: p.1, p.2))
/-! ## Helper lemmas -/

theorem removeTagsList_any_false (l : List CommentTag) (n : Str)
    (p : CommentTag → Bool) (h : l.any p = false) :
    (removeTagsList l n).any p = false := by
  induction l with
  | nil => rfl
  | cons t ts ih =>
    simp only [List.any_cons, Bool.or_eq_false_iff] at h
    unfold removeTagsList
    by_cases ht : t.tagName = n
    · simpa [ht] using ih h.2
    · simp [ht, h.1, ih h.2]

theorem removeTagsList_self_any (l : List CommentTag) (n : Str) :
    (removeTagsList l n).any (fun t => t.tagName == n) = false := by
  induction l with
  | nil => rfl
  | cons t ts ih =>
    unfold removeTagsList
    by_cases ht : t.tagName = n
    · simpa [ht] using ih
    · simp [ht, ih]

theorem find?_removeTagsList (l : List CommentTag) (n : Str)
    (p : CommentTag → Bool) (hp : ∀ t, p t = true → t.tagName ≠ n) :
    (removeTagsList l n).find? p = l.find? p := by
  induction l with
  | nil => rfl
  | cons t ts ih =>
    unfold removeTagsList
    by_cases ht : t.tagName = n
    · have hpt : p t = false := by
        by_contra hc
        exact hp t (eq_true_of_ne_false hc) ht
      simp [ht, List.find?_cons, hpt, ih]
    · by_cases hpt : p t = true
      · simp [ht, List.find?_cons, hpt]
      · have : p t = false := Bool.eq_false_iff.mpr hpt
        simp [ht, List.find?_cons, this, ih]

theorem mem_of_mem_removeTagsList {x : CommentTag} {l : List CommentTag}
    {n : Str} (h : x ∈ removeTagsList l n) : x ∈ l := by
  induction l with
  | nil => simp [removeTagsList] at h
  | cons t ts ih =>
    unfold removeTagsList at h
    by_cases ht : t.tagName = n
    · simp only [if_pos ht] at h
      exact List.mem_cons_of_mem _ (ih h)
    · simp only [if_neg ht, List.mem_cons] at h
      rcases h with h | h
      · exact h ▸ List.mem_cons_self _ _
      · exact List.mem_cons_of_mem _ (ih h)

theorem tagName_ne_of_mem_removeTagsList {x : CommentTag} {l : List CommentTag}
    {n : Str} (h : x ∈ removeTagsList l n) : x.tagName ≠ n := by
  induction l with
  | nil => simp [removeTagsList] at h
  | cons t ts ih =>
    unfold removeTagsList at h
    by_cases ht : t.tagName = n
    · simp only [if_pos ht] at h
      exact ih h
    · simp only [if_neg ht, List.mem_cons] at h
      rcases h with h | h
      · exact h ▸ ht
      · exact ih h

theorem removeFirstTagNamed_countP (l : List CommentTag) (n pn : Str)
    (h : l.any (fun t => t.tagName == n && t.paramName == pn) = true) :
    (removeFirstTagNamed l n pn).countP
        (fun t => t.tagName == n && t.paramName == pn) + 1 =
      l.countP (fun t => t.tagName == n && t.paramName == pn) := by
  induction l with
  | nil => simp at h
  | cons t ts ih =>
    unfold removeFirstTagNamed
    by_cases hm : (t.tagName == n && t.paramName == pn) = true
    · simp [hm, List.countP_cons]
    · have hm' : (t.tagName == n && t.paramName == pn) = false :=
        Bool.eq_false_iff.mpr hm
      simp only [List.any_cons, hm', Bool.false_or] at h
      simp [hm', List.countP_cons, ih h]

/-! ## Claim C1 -/

/-- Claim C1 is false on the code: offering a second non-preferred
candidate of the same length as the stored non-preferred candidate
replaces the stored one.  Recording `ab` and then `cd` (both length 2,
neither containing `@preferred`) for module id 0 leaves `cd` stored, not
the earlier-seen `ab`. -/
theorem c1_counterexample :
    isPreferredText "ab".data = false ∧
    isPreferredText "cd".data = false ∧
    ("ab".data : Str).length = ("cd".data : Str).length ∧
    runStore [(0, "ab".data), (0, "cd".data)] 0 = some ⟨0, "cd".data, false⟩ ∧
    runStore [(0, "ab".data), (0, "cd".data)] 0 ≠ some ⟨0, "ab".data, false⟩ := by
  decide

/-- Claim C1 (amended): when `storeModuleComment` is offered a new
non-preferred candidate whose text length equals the stored non-preferred
candidate's text length, the new candidate replaces the stored one; the
stored candidate survives only when it is preferred or strictly longer. -/
theorem c1_amended (table : CommentTable) (id : Nat) (t : Str)
    (info : ModuleComment)
    (hinfo : table id = some info) (hpref : info.isPreferred = false)
    (hnp : isPreferredText t = false) (hlen : t.length = info.fullText.length) :
    storeModuleComment table t id id =
      some { info with fullText := t, isPreferred := false } := by
  unfold storeModuleComment
  rw [hinfo]
  simp [hnp, hpref, hlen]

/-- Witness for `c1_amended` at the concrete counterexample input. -/
theorem c1_amended_witness :
    storeModuleComment (runStore [(0, "ab".data)]) "cd".data 0 0 =
      some ⟨0, "cd".data, false⟩ := by
  have h := c1_amended (runStore [(0, "ab".data)]) 0 "cd".data
    ⟨0, "ab".data, false⟩ (by decide) (by decide) (by decide) (by decide)
  exact h

/-! ## Claim C5 -/

/-- Claim C5 is false on the code: parsing the exact string yields the
expected `shortText` and `param` tag, but the `returns` tag's text is
`"done\n"`, not `"done"` — stripping the closing `*/` marker leaves a
final whitespace-only line that is appended to the open `returns` tag as
an (empty) continuation line. -/
theorem c5_counterexample :
    parseComment "/** A. \n * @param x the value\n * @returns done\n */".data
        Comment.empty =
      { shortText := "A.".data, text := [], returns := [],
        tags := [⟨"param".data, "x".data, "the value".data⟩,
                 ⟨"returns".data, [], "done\n".data⟩] } ∧
    (parseComment "/** A. \n * @param x the value\n * @returns done\n */".data
        Comment.empty).tags.any
      (fun t => t.tagName == "returns".data && t.text == "done".data) = false := by
  decide

/-- Claim C5 (amended): `parseComment` applied to the exact string
produces a `Comment` with `shortText = "A."`, exactly one `param` tag with
`paramName = "x"` and text `"the value"`, and exactly one `returns` tag
whose text is `"done\n"` (the trailing newline stems from the residual
whitespace line left by the closing marker). -/
theorem c5_amended :
    parseComment "/** A. \n * @param x the value\n * @returns done\n */".data
        Comment.empty =
      { shortText := "A.".data, text := [], returns := [],
        tags := [⟨"param".data, "x".data, "the value".data⟩,
                 ⟨"returns".data, [], "done\n".data⟩] } := by
  decide

/-! ## Claim C9 -/

/-- Claim C9: a line consisting of `@param` with no following token is not
rejected: `parseComment`'s line handler still records a `param` tag, and
that tag's parameter name is empty. -/
theorem c9_param_no_token (st : ParseState) (l : Str)
    (h : normLine l = "@param".data) :
    processLine st l =
      { st with tags := st.tags ++ [⟨"param".data, [], []⟩],
                hasCurrent := true } := by
  unfold processLine
  rw [h]
  rfl

/-- Witness for `c9_param_no_token`: the raw line `  * @param`. -/
theorem c9_param_no_token_witness :
    processLine ⟨[], [], [], false, 0⟩ "  * @param".data =
      { shortText := [], text := [], tags := [⟨"param".data, [], []⟩],
        hasCurrent := true, shortPhase := 0 } := by
  have h := c9_param_no_token ⟨[], [], [], false, 0⟩ "  * @param".data (by decide)
  exact h

/-! ## Claim C7 -/

/-- Claim C7: `applyAccessModifiers` leaves no `private`, `protected` or
`public` tag on the comment (every occurrence it acts on is removed, not
just the first), and running it a second time on its own output changes
neither the tag sequence nor the flags. -/
theorem c7_access_modifiers (flags : RFlags) (c : Comment) :
    ((applyAccessModifiers flags c).2.hasTag "private".data = false ∧
     (applyAccessModifiers flags c).2.hasTag "protected".data = false ∧
     (applyAccessModifiers flags c).2.hasTag "public".data = false) ∧
    applyAccessModifiers (applyAccessModifiers flags c).1
        (applyAccessModifiers flags c).2 =
      applyAccessModifiers flags c := by
  have key :
      (applyAccessModifiers flags c).2.hasTag "private".data = false ∧
      (applyAccessModifiers flags c).2.hasTag "protected".data = false ∧
      (applyAccessModifiers flags c).2.hasTag "public".data = false := by
    refine ⟨?_, ?_, ?_⟩ <;>
      (simp only [applyAccessModifiers, Comment.hasTag]
       split <;> split <;> split <;>
         first
         | (simp_all
            done)
         | (simp_all
            intro x hx heq
            solve_by_elim [mem_of_mem_removeTagsList,
              tagName_ne_of_mem_removeTagsList]))
  refine ⟨key, ?_⟩
  obtain ⟨k1, k2, k3⟩ := key
  conv_lhs => rw [applyAccessModifiers]
  simp [k1, k2, k3]

/-! ## Claim C8 -/

/-- Claim C8: when the parent declaration's comment contains a `param` tag
whose name equals the type parameter's name, the type parameter's comment
becomes a fresh `Comment` holding that tag's text as short text only, the
first matching occurrence is removed from the parent's tag sequence, and
the number of matching occurrences drops by exactly one (consumed once,
never duplicated). -/
theorem c8_type_param_extraction (c : Comment) (name : Str) (tag : CommentTag)
    (h : c.getTagNamed "param".data name = some tag) :
    (onCreateTypeParameter (some c) name).1 = some (Comment.ofShort tag.text) ∧
    (onCreateTypeParameter (some c) name).2 =
      some { c with tags := removeFirstTagNamed c.tags "param".data name } ∧
    (removeFirstTagNamed c.tags "param".data name).countP
        (fun t => t.tagName == "param".data && t.paramName == name) + 1 =
      c.tags.countP (fun t => t.tagName == "param".data && t.paramName == name) := by
  have hfind : c.tags.find?
      (fun t => t.tagName == "param".data && t.paramName == name) = some tag := h
  have hp := List.find?_some hfind
  have hany : c.tags.any
      (fun t => t.tagName == "param".data && t.paramName == name) = true :=
    List.any_eq_true.mpr ⟨tag, List.mem_of_find?_eq_some hfind, hp⟩
  refine ⟨?_, ?_, removeFirstTagNamed_countP _ _ _ hany⟩ <;>
    simp [onCreateTypeParameter, h]

/-- Witness for `c8_type_param_extraction`: a parent comment documenting
type parameter `T`. -/
theorem c8_type_param_extraction_witness :
    (onCreateTypeParameter
        (some ⟨[], [], [], [⟨"param".data, "T".data, "the element type".data⟩]⟩)
        "T".data).1 =
      some (Comment.ofShort "the element type".data) ∧
    (onCreateTypeParameter
        (some ⟨[], [], [], [⟨"param".data, "T".data, "the element type".data⟩]⟩)
        "T".data).2 =
      some { Comment.mk [] [] []
              [⟨"param".data, "T".data, "the element type".data⟩] with
             tags := removeFirstTagNamed
               [⟨"param".data, "T".data, "the element type".data⟩]
               "param".data "T".data } ∧
    (removeFirstTagNamed [⟨"param".data, "T".data, "the element type".data⟩]
        "param".data "T".data).countP
        (fun t => t.tagName == "param".data && t.paramName == "T".data) + 1 =
      ([⟨"param".data, "T".data, "the element type".data⟩] :
          List CommentTag).countP
        (fun t => t.tagName == "param".data && t.paramName == "T".data) := by
  have h := c8_type_param_extraction
    ⟨[], [], [], [⟨"param".data, "T".data, "the element type".data⟩]⟩
    "T".data ⟨"param".data, "T".data, "the element type".data⟩ (by decide)
  exact h

/-! ## Claim C10 -/

/-- Claim C10: for a function-or-method reflection with a raw comment but
no pre-existing comment object, `onDeclaration` never attaches the parsed
comment — the reflection's comment stays absent and only its flags change
(to the output of the access-modifier pass); the module table is
untouched. -/
theorem c10_function_comment_not_attached (table : CommentTable)
    (r : Reflection) (raw : Str)
    (hkind : r.kind = RKind.functionOrMethod) (hc : r.comment = none) :
    onDeclaration table r (some raw) =
      ({ r with flags :=
          (applyAccessModifiers r.flags (parseComment raw Comment.empty)).1 },
       table) := by
  rcases r with ⟨k, id, cm, fl⟩
  cases hkind
  cases hc
  simp [onDeclaration]

/-- Witness for `c10_function_comment_not_attached` at a concrete
reflection and raw comment. -/
theorem c10_function_comment_not_attached_witness :
    onDeclaration emptyTable
        ⟨RKind.functionOrMethod, 3, none, ⟨false, false, false⟩⟩
        (some "/** hi\n@private */".data) =
      ({ kind := RKind.functionOrMethod, id := 3, comment := none,
         flags := (applyAccessModifiers ⟨false, false, false⟩
           (parseComment "/** hi\n@private */".data Comment.empty)).1 },
       emptyTable) := by
  have h := c10_function_comment_not_attached emptyTable
    ⟨RKind.functionOrMethod, 3, none, ⟨false, false, false⟩⟩
    "/** hi\n@private */".data rfl rfl
  exact h

/-! ## Claim C4 -/

theorem storeModuleComment_other_id (tb : CommentTable) (t : Str) (j id : Nat)
    (hne : id ≠ j) : storeModuleComment tb t j id = tb id := by
  cases htb : tb j with
  | none => simp [storeModuleComment, htb, hne]
  | some info =>
    simp only [storeModuleComment, htb]
    split
    · rfl
    · simp [hne]

theorem storeModuleComment_preserves_preferred (tb : CommentTable) (t : Str)
    (j id : Nat) (info : ModuleComment) (h : tb id = some info)
    (hp : info.isPreferred = true) (hm : isPreferredText info.fullText = true) :
    ∃ info2, storeModuleComment tb t j id = some info2 ∧
      info2.isPreferred = true ∧ isPreferredText info2.fullText = true := by
  by_cases hj : id = j
  · subst hj
    by_cases hnew : isPreferredText t = true
    · refine ⟨{ info with fullText := t, isPreferred := isPreferredText t },
        ?_, hnew, by simp [hnew] ⟩
      simp [storeModuleComment, h, hnew]
    · have hf : isPreferredText t = false := eq_false_of_ne_true hnew
      refine ⟨info, ?_, hp, hm⟩
      simp [storeModuleComment, h, hf, hp]
  · exact ⟨info, by rw [storeModuleComment_other_id tb t j id hj]; exact h,
      hp, hm⟩

theorem storeModuleComment_establishes (tb : CommentTable) (t : Str) (id : Nat)
    (hp : isPreferredText t = true) :
    ∃ info2, storeModuleComment tb t id id = some info2 ∧
      info2.isPreferred = true ∧ isPreferredText info2.fullText = true := by
  cases htb : tb id with
  | none =>
    refine ⟨⟨id, t, isPreferredText t⟩, ?_, hp, hp⟩
    simp [storeModuleComment, htb]
  | some info =>
    refine ⟨{ info with fullText := t, isPreferred := isPreferredText t },
      ?_, hp, hp⟩
    simp [storeModuleComment, htb, hp]

theorem foldl_store_preserves (pairs : List (Nat × Str)) (tb : CommentTable)
    (id : Nat)
    (h : ∃ info, tb id = some info ∧ info.isPreferred = true ∧
      isPreferredText info.fullText = true) :
    ∃ info, (pairs.foldl (fun tb2 p => storeModuleComment tb2 p.2 p.1) tb) id =
        some info ∧
      info.isPreferred = true ∧ isPreferredText info.fullText = true := by
  induction pairs generalizing tb with
  | nil => exact h
  | cons p ps ih =>
    obtain ⟨info, hi, hp, hm⟩ := h
    exact ih _ (storeModuleComment_preserves_preferred tb p.2 p.1 id info hi hp hm)

theorem foldl_store_mem (pairs : List (Nat × Str)) (id : Nat) (t : Str)
    (hmem : (id, t) ∈ pairs) (hp : isPreferredText t = true) :
    ∀ tb : CommentTable,
      ∃ info, (pairs.foldl (fun tb2 p => storeModuleComment tb2 p.2 p.1) tb) id =
          some info ∧
        info.isPreferred = true ∧ isPreferredText info.fullText = true := by
  induction pairs with
  | nil => cases hmem
  | cons p ps ih =>
    intro tb
    rcases List.mem_cons.mp hmem with he | hm2
    · rw [List.foldl_cons]
      cases he
      exact foldl_store_preserves ps _ id (storeModuleComment_establishes tb t id hp)
    · rw [List.foldl_cons]
      exact ih hm2 _

/-- Claim C4: for every module reflection id and every sequence of recorded
candidates, if some candidate recorded for that id carries the
case-insensitive `@preferred` marker in its raw text, then the candidate
stored at the end of the sequence — the one `onBeginResolve` retains — is a
preferred one (its flag is set and its raw text carries the marker),
regardless of lengths or arrival order. -/
theorem c4_preferred_retained (pairs : List (Nat × Str)) (id : Nat) (t : Str)
    (hmem : (id, t) ∈ pairs) (hp : isPreferredText t = true) :
    ∃ info, runStore pairs id = some info ∧ info.isPreferred = true ∧
      isPreferredText info.fullText = true :=
  foldl_store_mem pairs id t hmem hp emptyTable

/-- Witness for `c4_preferred_retained`: the spec's scenario — a short
candidate, then a longer non-preferred one, then a preferred one. -/
theorem c4_preferred_retained_witness :
    ∃ info, runStore [(0, "short".data), (0, "a much longer block".data),
        (0, "final @Preferred".data)] 0 = some info ∧
      info.isPreferred = true ∧ isPreferredText info.fullText = true :=
  c4_preferred_retained _ 0 "final @Preferred".data (by decide) (by decide)

/-! ## Claim C2 -/

theorem moveReturnsTag_of_getTag (c : Comment) (t : CommentTag)
    (h : c.getTag "returns".data = some t) :
    moveReturnsTag c =
      { c with returns := t.text,
               tags := removeTagsList c.tags "returns".data } := by
  unfold moveReturnsTag
  rw [h]

theorem moveReturnsTag_of_none (c : Comment)
    (h : c.getTag "returns".data = none) : moveReturnsTag c = c := by
  unfold moveReturnsTag
  rw [h]

theorem any_eq_false_of_find?_eq_none {p : CommentTag → Bool}
    {l : List CommentTag} (h : l.find? p = none) : l.any p = false := by
  rw [List.any_eq_false]
  intro x hx
  have := List.find?_eq_none.mp h x hx
  simpa using this

theorem reconcileSignature_own_returns (dc0 sc : Comment)
    (ps : List Parameter) (tS : CommentTag)
    (h : sc.getTag "returns".data = some tS) (hS : tS.text ≠ []) :
    ∃ cc : Comment,
      (reconcileSignature (some dc0) ⟨some sc, ps⟩).comment = some cc ∧
      cc.returns = tS.text ∧
      cc.tags = removeTagsList (removeTagsList sc.tags "returns".data)
        "param".data := by
  refine ⟨⟨if sc.shortText = [] then dc0.shortText else sc.shortText,
           if sc.text = [] then dc0.text else sc.text,
           tS.text,
           removeTagsList (removeTagsList sc.tags "returns".data) "param".data⟩,
    ?_, rfl, rfl⟩
  simp [reconcileSignature, moveReturnsTag_of_getTag sc tS h, removeTags, hS]

theorem reconcileSignature_inherit_returns (dc0 sc : Comment)
    (ps : List Parameter)
    (h : sc.getTag "returns".data = none) (hr : sc.returns = []) :
    ∃ cc : Comment,
      (reconcileSignature (some dc0) ⟨some sc, ps⟩).comment = some cc ∧
      cc.returns = dc0.returns ∧
      cc.tags = removeTagsList sc.tags "param".data := by
  refine ⟨⟨if sc.shortText = [] then dc0.shortText else sc.shortText,
           if sc.text = [] then dc0.text else sc.text,
           dc0.returns,
           removeTagsList sc.tags "param".data⟩, ?_, rfl, rfl⟩
  simp [reconcileSignature, moveReturnsTag_of_none sc h, removeTags, hr]

/-- Claim C2: for a declaration whose comment carries a `returns` tag with
text `R` and two signatures — the first with its own `returns` tag with
text `S` (non-empty), the second with a comment that carries no `returns`
tag and an empty `returns` field — after `reconcile` the first signature's
`returns` is `S`, the second's is `R`, the declaration comment's `returns`
is `R`, and no comment involved retains a `returns` tag. -/
theorem c2_returns_reconciliation (dc c1 c2 : Comment) (t1 tS : CommentTag)
    (ps1 ps2 : List Parameter)
    (hd : dc.getTag "returns".data = some t1)
    (h1 : c1.getTag "returns".data = some tS) (hS : tS.text ≠ [])
    (h2 : c2.getTag "returns".data = none) (h2r : c2.returns = []) :
    ((reconcile ⟨some dc, [⟨some c1, ps1⟩, ⟨some c2, ps2⟩]⟩).signatures.map
        (fun s => s.comment.map Comment.returns) =
      [some tS.text, some t1.text]) ∧
    ((reconcile ⟨some dc, [⟨some c1, ps1⟩, ⟨some c2, ps2⟩]⟩).comment.map
        Comment.returns = some t1.text) ∧
    ((reconcile ⟨some dc, [⟨some c1, ps1⟩, ⟨some c2, ps2⟩]⟩).signatures.map
        (fun s => s.comment.map (fun cm => cm.hasTag "returns".data)) =
      [some false, some false]) ∧
    ((reconcile ⟨some dc, [⟨some c1, ps1⟩, ⟨some c2, ps2⟩]⟩).comment.map
        (fun cm => cm.hasTag "returns".data) = some false) := by
  obtain ⟨cc1, hcc1, hr1, ht1⟩ :=
    reconcileSignature_own_returns (moveReturnsTag dc) c1 ps1 tS h1 hS
  obtain ⟨cc2, hcc2, hr2, ht2⟩ :=
    reconcileSignature_inherit_returns (moveReturnsTag dc) c2 ps2 h2 h2r
  have hdc := moveReturnsTag_of_getTag dc t1 hd
  have hsig : (reconcile ⟨some dc, [⟨some c1, ps1⟩, ⟨some c2, ps2⟩]⟩).signatures =
      [reconcileSignature (some (moveReturnsTag dc)) ⟨some c1, ps1⟩,
       reconcileSignature (some (moveReturnsTag dc)) ⟨some c2, ps2⟩] := by
    simp [reconcile]
  have hcom : (reconcile ⟨some dc, [⟨some c1, ps1⟩, ⟨some c2, ps2⟩]⟩).comment =
      some { moveReturnsTag dc with
             tags := removeTagsList (moveReturnsTag dc).tags "param".data } := by
    simp [reconcile, removeTags]
  have a1 : (removeTagsList (removeTagsList c1.tags "returns".data)
      "param".data).any (fun t => t.tagName == "returns".data) = false :=
    removeTagsList_any_false _ _ _ (removeTagsList_self_any _ _)
  have a2 : (removeTagsList c2.tags "param".data).any
      (fun t => t.tagName == "returns".data) = false :=
    removeTagsList_any_false _ _ _ (any_eq_false_of_find?_eq_none h2)
  have a3 : (removeTagsList (removeTagsList dc.tags "returns".data)
      "param".data).any (fun t => t.tagName == "returns".data) = false :=
    removeTagsList_any_false _ _ _ (removeTagsList_self_any _ _)
  have hdcr : (moveReturnsTag dc).returns = t1.text := by rw [hdc]
  have hdct : (moveReturnsTag dc).tags = removeTagsList dc.tags "returns".data := by
    rw [hdc]
  refine ⟨?_, ?_, ?_, ?_⟩
  · rw [hsig]
    simp [hcc1, hcc2, hr1, hr2, hdcr]
  · rw [hcom]
    simp [hdcr]
  · rw [hsig]
    simp [hcc1, hcc2, Comment.hasTag, ht1, ht2, a1, a2]
  · rw [hcom]
    simp [Comment.hasTag, hdct, a3]

/-- Witness for `c2_returns_reconciliation` at concrete comments with
`R = "R"` and `S = "S"`. -/
theorem c2_returns_reconciliation_witness :
    ((reconcile ⟨some ⟨[], [], [], [⟨"returns".data, [], "R".data⟩]⟩,
        [⟨some ⟨[], [], [], [⟨"returns".data, [], "S".data⟩]⟩, []⟩,
         ⟨some Comment.empty, []⟩]⟩).signatures.map
        (fun s => s.comment.map Comment.returns) =
      [some "S".data, some "R".data]) ∧
    ((reconcile ⟨some ⟨[], [], [], [⟨"returns".data, [], "R".data⟩]⟩,
        [⟨some ⟨[], [], [], [⟨"returns".data, [], "S".data⟩]⟩, []⟩,
         ⟨some Comment.empty, []⟩]⟩).comment.map
        Comment.returns = some "R".data) ∧
    ((reconcile ⟨some ⟨[], [], [], [⟨"returns".data, [], "R".data⟩]⟩,
        [⟨some ⟨[], [], [], [⟨"returns".data, [], "S".data⟩]⟩, []⟩,
         ⟨some Comment.empty, []⟩]⟩).signatures.map
        (fun s => s.comment.map (fun cm => cm.hasTag "returns".data)) =
      [some false, some false]) ∧
    ((reconcile ⟨some ⟨[], [], [], [⟨"returns".data, [], "R".data⟩]⟩,
        [⟨some ⟨[], [], [], [⟨"returns".data, [], "S".data⟩]⟩, []⟩,
         ⟨some Comment.empty, []⟩]⟩).comment.map
        (fun cm => cm.hasTag "returns".data) = some false) := by
  have h := c2_returns_reconciliation
    ⟨[], [], [], [⟨"returns".data, [], "R".data⟩]⟩
    ⟨[], [], [], [⟨"returns".data, [], "S".data⟩]⟩
    Comment.empty
    ⟨"returns".data, [], "R".data⟩ ⟨"returns".data, [], "S".data⟩ [] []
    (by decide) (by decide) (by decide) (by decide) (by decide)
  exact h

/-! ## Claim C3 -/

theorem getTagNamed_moveReturnsTag (c : Comment) (pn : Str) :
    (moveReturnsTag c).getTagNamed "param".data pn =
      c.getTagNamed "param".data pn := by
  unfold moveReturnsTag
  cases h : c.getTag "returns".data with
  | none => rfl
  | some t =>
    simp only [Comment.getTagNamed]
    apply find?_removeTagsList
    intro x hx hcon
    have h1 : x.tagName = "param".data := by
      have := (Bool.and_eq_true_iff.mp hx).1
      simpa using this
    rw [h1] at hcon
    exact absurd hcon (by decide)

theorem reconcileSignature_param_spec (dc0 sc : Comment) (ps : List Parameter)
    (p : Parameter) (j : Nat) (tS : CommentTag)
    (hj : ps[j]? = some p)
    (hS : sc.getTagNamed "param".data p.name = some tS) :
    (reconcileSignature (some dc0) ⟨some sc, ps⟩).parameters[j]? =
      some { p with comment := some (Comment.ofShort tS.text) } := by
  have hm : (moveReturnsTag sc).getTagNamed "param".data p.name = some tS := by
    rw [getTagNamed_moveReturnsTag]
    exact hS
  have hm2 : (moveReturnsTag sc).tags.find?
      (fun t => t.tagName == "param".data && t.paramName == p.name) = some tS := hm
  simp only [reconcileSignature]
  rw [List.getElem?_map, hj]
  simp [Comment.getTagNamed, hm2]

/-- Claim C3: if both the signature's own comment and the owning
declaration's comment contain a `param` tag matching a parameter's name,
the reconciled parameter comment is built from the signature-level tag's
text only — the declaration-level tag's text never appears and the two are
never merged. -/
theorem c3_param_specificity (d : Declaration) (dc sc : Comment)
    (sig : Signature) (p : Parameter) (i j : Nat) (tS tD : CommentTag)
    (hi : d.signatures[i]? = some sig) (hj : sig.parameters[j]? = some p)
    (hd : d.comment = some dc) (hsc : sig.comment = some sc)
    (hS : sc.getTagNamed "param".data p.name = some tS)
    (_hD : dc.getTagNamed "param".data p.name = some tD) :
    (reconcile d).signatures[i]?.map (fun s => s.parameters[j]?) =
      some (some { p with comment := some (Comment.ofShort tS.text) }) := by
  have hne : d.signatures ≠ [] := by
    intro h0
    rw [h0] at hi
    simp at hi
  have hrec : (reconcile d).signatures =
      d.signatures.map (reconcileSignature (d.comment.map moveReturnsTag)) := by
    unfold reconcile
    rw [if_neg hne]
  obtain ⟨scm, ps⟩ := sig
  have hscm : scm = some sc := hsc
  subst hscm
  have hps := reconcileSignature_param_spec (moveReturnsTag dc) sc ps p j tS hj hS
  rw [hrec, List.getElem?_map, hi, hd]
  simp [hps]

/-- Witness for `c3_param_specificity`: parameter `x` documented both at
signature level and declaration level. -/
theorem c3_param_specificity_witness :
    (reconcile ⟨some ⟨[], [], [], [⟨"param".data, "x".data, "decl-level".data⟩]⟩,
        [⟨some ⟨[], [], [], [⟨"param".data, "x".data, "sig-level".data⟩]⟩,
          [⟨"x".data, none⟩]⟩]⟩).signatures[0]?.map
        (fun s => s.parameters[0]?) =
      some (some { Parameter.mk "x".data none with
                   comment := some (Comment.ofShort "sig-level".data) }) := by
  have h := c3_param_specificity
    ⟨some ⟨[], [], [], [⟨"param".data, "x".data, "decl-level".data⟩]⟩,
      [⟨some ⟨[], [], [], [⟨"param".data, "x".data, "sig-level".data⟩]⟩,
        [⟨"x".data, none⟩]⟩]⟩
    ⟨[], [], [], [⟨"param".data, "x".data, "decl-level".data⟩]⟩
    ⟨[], [], [], [⟨"param".data, "x".data, "sig-level".data⟩]⟩
    ⟨some ⟨[], [], [], [⟨"param".data, "x".data, "sig-level".data⟩]⟩,
      [⟨"x".data, none⟩]⟩
    ⟨"x".data, none⟩ 0 0
    ⟨"param".data, "x".data, "sig-level".data⟩
    ⟨"param".data, "x".data, "decl-level".data⟩
    (by decide) (by decide) (by decide) (by decide) (by decide) (by decide)
  exact h

/-! ## Claim C6 -/

theorem joinStep_nil (l : Str) : joinStep [] l = l := by
  simp [joinStep]

theorem isEmpty_false_of_ne {l : Str} (h : l ≠ []) : l.isEmpty = false := by
  cases l with
  | nil => exact absurd rfl h
  | cons x xs => rfl

theorem head_dropWhile_not_isEmpty (ls : List Str) (x : Str) (rest : List Str)
    (h : ls.dropWhile List.isEmpty = x :: rest) : x ≠ [] := by
  induction ls with
  | nil => simp at h
  | cons l ls ih =>
    rw [List.dropWhile_cons] at h
    split at h
    · exact ih h
    · rename_i hlf
      cases h
      intro hx
      exact hlf (by rw [hx]; rfl)

theorem joinNL_cons_cons (l m : Str) (ms : List Str) :
    joinNL (l :: m :: ms) = l ++ '\n' :: joinNL (m :: ms) := rfl

theorem foldl_joinStep_of_ne (ls : List Str) (a : Str) (ha : a ≠ []) :
    ls.foldl joinStep a = joinNL (a :: ls) := by
  induction ls generalizing a with
  | nil => rfl
  | cons l ls ih =>
    rw [List.foldl_cons]
    have ha' : joinStep a l ≠ [] := by
      simp [joinStep, if_neg ha]
    rw [ih _ ha']
    cases ls with
    | nil =>
      rw [joinNL_cons_cons]
      simp [joinNL, joinStep, if_neg ha]
    | cons m ms =>
      rw [joinNL_cons_cons, joinNL_cons_cons, joinNL_cons_cons]
      simp [joinStep, if_neg ha]

theorem foldl_joinStep_nil_start (ls : List Str) :
    ls.foldl joinStep [] = joinNL (ls.dropWhile List.isEmpty) := by
  induction ls with
  | nil => rfl
  | cons l ls ih =>
    by_cases hb : l = []
    · subst hb
      rw [List.foldl_cons, joinStep_nil]
      rw [ih]
      rfl
    · rw [List.foldl_cons, joinStep_nil, foldl_joinStep_of_ne ls l hb]
      rw [List.dropWhile_cons, isEmpty_false_of_ne hb]
      rfl

theorem foldl_phase2 (raws : List Str) (sS sT : Str) (tags : List CommentTag)
    (hT : ∀ l ∈ raws, execTag (normLine l) = none) :
    raws.foldl processLine ⟨sS, sT, tags, false, 2⟩ =
      ⟨sS, (raws.map normLine).foldl joinStep sT, tags, false, 2⟩ := by
  induction raws generalizing sT with
  | nil => rfl
  | cons l ls ih =>
    have hl := hT l (List.mem_cons_self _ _)
    have hstep : processLine ⟨sS, sT, tags, false, 2⟩ l =
        ⟨sS, joinStep sT (normLine l), tags, false, 2⟩ := by
      unfold processLine processLineCore
      rw [hl]
      simp
    rw [List.foldl_cons, hstep, List.map_cons, List.foldl_cons]
    exact ih (joinStep sT (normLine l))
      (fun x hx => hT x (List.mem_cons_of_mem _ hx))

theorem foldl_phase1 (raws : List Str) (sS sT : Str) (tags : List CommentTag)
    (hT : ∀ l ∈ raws, execTag (normLine l) = none) :
    raws.foldl processLine ⟨sS, sT, tags, false, 1⟩ =
      (match splitAtFirstBlank (raws.map normLine) with
       | none => ⟨(raws.map normLine).foldl joinStep sS, sT, tags, false, 1⟩
       | some (b, a) =>
         ⟨b.foldl joinStep sS, a.foldl joinStep sT, tags, false, 2⟩) := by
  induction raws generalizing sS with
  | nil => rfl
  | cons l ls ih =>
    have hl := hT l (List.mem_cons_self _ _)
    by_cases hb : normLine l = []
    · have hstep : processLine ⟨sS, sT, tags, false, 1⟩ l =
          ⟨sS, sT, tags, false, 2⟩ := by
        unfold processLine processLineCore
        rw [hl]
        simp [hb]
      rw [List.foldl_cons, hstep, List.map_cons, hb]
      rw [foldl_phase2 ls sS sT tags
        (fun x hx => hT x (List.mem_cons_of_mem _ hx))]
      simp [splitAtFirstBlank]
    · have hstep : processLine ⟨sS, sT, tags, false, 1⟩ l =
          ⟨joinStep sS (normLine l), sT, tags, false, 1⟩ := by
        unfold processLine processLineCore
        rw [hl]
        simp [hb]
      rw [List.foldl_cons, hstep, List.map_cons]
      rw [ih (joinStep sS (normLine l))
        (fun x hx => hT x (List.mem_cons_of_mem _ hx))]
      have hsp : splitAtFirstBlank (normLine l :: ls.map normLine) =
          (splitAtFirstBlank (ls.map normLine)).map
            (fun q => (normLine l :: q.1, q.2)) := by
        simp [splitAtFirstBlank, hb]
      rw [hsp]
      cases hspl : splitAtFirstBlank (ls.map normLine) with
      | none => simp
      | some q =>
        obtain ⟨b, a⟩ := q
        simp

theorem foldl_phase0 (raws : List Str) (sS sT : Str) (tags : List CommentTag)
    (hT : ∀ l ∈ raws, execTag (normLine l) = none) :
    raws.foldl processLine ⟨sS, sT, tags, false, 0⟩ =
      (match (raws.map normLine).dropWhile List.isEmpty with
       | [] => ⟨sS, sT, tags, false, 0⟩
       | x :: rest =>
         match splitAtFirstBlank rest with
         | none => ⟨rest.foldl joinStep (joinStep sS x), sT, tags, false, 1⟩
         | some (b, a) =>
           ⟨b.foldl joinStep (joinStep sS x), a.foldl joinStep sT, tags,
            false, 2⟩) := by
  induction raws with
  | nil => rfl
  | cons l ls ih =>
    have hl := hT l (List.mem_cons_self _ _)
    by_cases hb : normLine l = []
    · have hstep : processLine ⟨sS, sT, tags, false, 0⟩ l =
          ⟨sS, sT, tags, false, 0⟩ := by
        unfold processLine processLineCore
        rw [hl]
        simp [hb]
      rw [List.foldl_cons, hstep, List.map_cons]
      rw [ih (fun x hx => hT x (List.mem_cons_of_mem _ hx))]
      rw [hb]
      rfl
    · have hstep : processLine ⟨sS, sT, tags, false, 0⟩ l =
          ⟨joinStep sS (normLine l), sT, tags, false, 1⟩ := by
        unfold processLine processLineCore
        rw [hl]
        simp [hb]
      rw [List.foldl_cons, hstep, List.map_cons]
      rw [foldl_phase1 ls (joinStep sS (normLine l)) sT tags
        (fun x hx => hT x (List.mem_cons_of_mem _ hx))]
      rw [List.dropWhile_cons, isEmpty_false_of_ne hb]
      rfl

/-- Claim C6 is false on the code as stated: for the tag-free input
`"a\n\n\nb"`, the lines after the first blank line are `["", "b"]`, whose
newline-join is `"\nb"`, but `parseComment` collapses the blank lines
preceding the first non-blank long-text line and produces `text = "b"`. -/
theorem c6_counterexample :
    (∀ l ∈ bodyLines "a\n\n\nb".data, isTagLine l = false) ∧
    splitAtFirstBlank ((bodyLines "a\n\n\nb".data).dropWhile List.isEmpty) =
      some (["a".data], [[], "b".data]) ∧
    (parseComment "a\n\n\nb".data Comment.empty).text = "b".data ∧
    joinNL [[], "b".data] = '\n' :: "b".data ∧
    (parseComment "a\n\n\nb".data Comment.empty).text ≠ '\n' :: "b".data := by
  decide

/-- Claim C6 (amended): for every input whose normalized gutter-stripped
lines contain no tag line, `parseComment` drops blank lines preceding any
content; if no blank line follows non-blank content the whole remainder is
newline-joined into `shortText` and `text` stays empty; otherwise the
lines before the first blank line are joined into `shortText` and the
lines after it — with the blank lines preceding the first subsequent
non-blank line dropped — are joined into `text`. -/
theorem c6_amended (text : Str)
    (h : ∀ l ∈ bodyLines text, isTagLine l = false) :
    (splitAtFirstBlank ((bodyLines text).dropWhile List.isEmpty) = none →
       (parseComment text Comment.empty).shortText =
         joinNL ((bodyLines text).dropWhile List.isEmpty) ∧
       (parseComment text Comment.empty).text = []) ∧
    (∀ b a, splitAtFirstBlank ((bodyLines text).dropWhile List.isEmpty) =
        some (b, a) →
       (parseComment text Comment.empty).shortText = joinNL b ∧
       (parseComment text Comment.empty).text =
         joinNL (a.dropWhile List.isEmpty)) := by
  have hT : ∀ l ∈ splitLines (stripClose (stripOpen text)),
      execTag (normLine l) = none := by
    intro l hl
    have hm : normLine l ∈ bodyLines text := List.mem_map_of_mem _ hl
    have h2 := h _ hm
    unfold isTagLine at h2
    cases he : execTag (normLine l) with
    | none => rfl
    | some w =>
      rw [he] at h2
      simp at h2
  have h0 := foldl_phase0 (splitLines (stripClose (stripOpen text))) [] [] [] hT
  have hbl : bodyLines text =
      (splitLines (stripClose (stripOpen text))).map normLine := rfl
  have hsc : (parseComment text Comment.empty).shortText =
      ((splitLines (stripClose (stripOpen text))).foldl processLine
        ⟨[], [], [], false, 0⟩).shortText := rfl
  have htc : (parseComment text Comment.empty).text =
      ((splitLines (stripClose (stripOpen text))).foldl processLine
        ⟨[], [], [], false, 0⟩).text := rfl
  cases hdw : ((splitLines (stripClose (stripOpen text))).map
      normLine).dropWhile List.isEmpty with
  | nil =>
    rw [hdw] at h0
    constructor
    · intro _
      constructor
      · rw [hsc, h0, hbl, hdw]
        rfl
      · rw [htc, h0]
    · intro b a hba
      rw [hbl, hdw] at hba
      simp [splitAtFirstBlank] at hba
  | cons x rest =>
    have hx : x ≠ [] := head_dropWhile_not_isEmpty _ _ _ hdw
    have hxsplit : splitAtFirstBlank (x :: rest) =
        (splitAtFirstBlank rest).map (fun q => (x :: q.1, q.2)) := by
      simp [splitAtFirstBlank, hx]
    cases hsp : splitAtFirstBlank rest with
    | none =>
      rw [hdw] at h0
      dsimp only at h0
      rw [hsp] at h0
      constructor
      · intro _
        constructor
        · rw [hsc, h0, hbl, hdw]
          show rest.foldl joinStep (joinStep [] x) = joinNL (x :: rest)
          rw [joinStep_nil, foldl_joinStep_of_ne rest x hx]
        · rw [htc, h0]
      · intro b a hba
        rw [hbl, hdw, hxsplit, hsp] at hba
        simp at hba
    | some q =>
      obtain ⟨b0, a0⟩ := q
      rw [hdw] at h0
      dsimp only at h0
      rw [hsp] at h0
      constructor
      · intro hnone
        rw [hbl, hdw, hxsplit, hsp] at hnone
        simp at hnone
      · intro b a hba
        rw [hbl, hdw, hxsplit, hsp] at hba
        simp at hba
        obtain ⟨hb, ha⟩ := hba
        subst hb
        subst ha
        constructor
        · rw [hsc, h0]
          show b0.foldl joinStep (joinStep [] x) = joinNL (x :: b0)
          rw [joinStep_nil, foldl_joinStep_of_ne b0 x hx]
        · rw [htc, h0]
          show a0.foldl joinStep [] = joinNL (a0.dropWhile List.isEmpty)
          rw [foldl_joinStep_nil_start]

/-- Witness for `c6_amended`: the input `"a\n\nb"` splits into short text
`"a"` and long text `"b"`. -/
theorem c6_amended_witness :
    (parseComment "a\n\nb".data Comment.empty).shortText = "a".data ∧
    (parseComment "a\n\nb".data Comment.empty).text = "b".data := by
  have h := (c6_amended "a\n\nb".data (by decide)).2 ["a".data] ["b".data]
    (by decide)
  refine ⟨?_, ?_⟩
  · rw [h.1]
    decide
  · rw [h.2]
    decide

end CommentPlugin
